import Mathlib

/-!
Verification of the doubly-linked list of
`src/DataStructuresAlgorithms/lists/doubly_linked_list.hpp`.

Memory is modeled explicitly: a heap is a list of nodes, an address is an
index into that heap, and a null `std::shared_ptr` / raw pointer is `none`.
Allocation (`std::make_shared`) appends a node at the end of the heap, so the
fresh address is the current heap length.  Nodes unlinked by the pop
operations simply become unreachable garbage; deallocation is not observable
by any operation of the class, so it is not modeled.  An operation that in
C++ would dereference a null (or dangling) pointer returns `none`: undefined
behavior is made explicit instead of being assigned a value.  Loops and
recursions that the C++ source writes without a structural bound take an
explicit fuel argument; `none` on fuel exhaustion means the modeled run did
not terminate within that bound.
-/

namespace dsa

/-- Node of the list (struct `doubly_linked_node` in the source): one item and
two owning links, each pointing to a neighboring node or null. -/
structure doubly_linked_node (T : Type) where
  item : T
  previous : Option Nat := none
  next : Option Nat := none
deriving DecidableEq

/-- Node equality (`doubly_linked_node::operator==`): defined purely by item
equality; the links are irrelevant. -/
def node_eq {T : Type} [DecidableEq T] (n1 n2 : doubly_linked_node T) : Bool :=
  n1.item == n2.item

/-- State of one `doubly_linked_list` object: the heap of nodes reachable
through it plus the three data members of the C++ class (`front`, `back`,
`nodes`).  Note the source's naming: `back` is where `push_front` inserts and
where forward iteration begins, `front` is where `push_back` inserts. -/
structure doubly_linked_list (T : Type) where
  heap : List (doubly_linked_node T) := []
  front : Option Nat := none
  back : Option Nat := none
  nodes : Nat := 0
deriving DecidableEq

variable {T : Type}

/-- Default-constructed list: no nodes, both end links null, count zero. -/
def new_list : doubly_linked_list T :=
  { heap := [], front := none, back := none, nodes := 0 }

/-- Member `empty()`: true iff `front` is null, `back` is null and the count
is zero, exactly as the three-way conjunction in the source. -/
def empty (s : doubly_linked_list T) : Bool :=
  s.front.isNone && s.back.isNone && (s.nodes == 0)

/-- Member `push_front(item)`: allocates a node; if the list is empty the new
node becomes both ends, otherwise it is linked before the current `back`
(`newNode->next = back; back->previous = newNode; back = newNode`).  Returns
`none` only if the non-empty branch would dereference a null or dangling
`back`, which never happens in well-formed states. -/
def push_front (s : doubly_linked_list T) (item : T) : Option (doubly_linked_list T) :=
  let a := s.heap.length
  if empty s then
    some { heap := s.heap ++ [{ item := item }],
           front := some a, back := some a, nodes := s.nodes + 1 }
  else
    match s.back with
    | none => none
    | some b =>
      match s.heap[b]? with
      | none => none
      | some bn =>
        some { heap := (s.heap ++ [({ item := item, next := some b } : doubly_linked_node T)]).set b
                         { bn with previous := some a },
               front := s.front, back := some a, nodes := s.nodes + 1 }

/-- Member `push_back(item)`: symmetric to `push_front` at the `front` end
(`newNode->previous = front; front->next = newNode; front = newNode`). -/
def push_back (s : doubly_linked_list T) (item : T) : Option (doubly_linked_list T) :=
  let a := s.heap.length
  if empty s then
    some { heap := s.heap ++ [{ item := item }],
           front := some a, back := some a, nodes := s.nodes + 1 }
  else
    match s.front with
    | none => none
    | some f =>
      match s.heap[f]? with
      | none => none
      | some fn =>
        some { heap := (s.heap ++ [({ item := item, previous := some f } : doubly_linked_node T)]).set f
                         { fn with next := some a },
               front := some a, back := s.back, nodes := s.nodes + 1 }

/-- Member `pop_front()`: if empty, returns a default-constructed value and
leaves the state untouched.  Otherwise it reads `front->item`, moves
`front->previous` out (nulling it), and either relinks `front` to that
previous node (nulling its `next`) or, when there is none, nulls both end
links; the count is decremented.  The removed node stays in the heap as
unreachable garbage. -/
def pop_front [Inhabited T] (s : doubly_linked_list T) :
    Option (T × doubly_linked_list T) :=
  if empty s then
    some (default, s)
  else
    match s.front with
    | none => none
    | some f =>
      match s.heap[f]? with
      | none => none
      | some fn =>
        let h1 := s.heap.set f { fn with previous := none }
        match fn.previous with
        | some p =>
          match h1[p]? with
          | none => none
          | some pn =>
            some (fn.item, { s with heap := h1.set p { pn with next := none },
                                    front := some p, nodes := s.nodes - 1 })
        | none =>
          some (fn.item, { s with heap := h1, front := none, back := none,
                                  nodes := s.nodes - 1 })

/-- Member `pop_back()`: symmetric to `pop_front` at the `back` end. -/
def pop_back [Inhabited T] (s : doubly_linked_list T) :
    Option (T × doubly_linked_list T) :=
  if empty s then
    some (default, s)
  else
    match s.back with
    | none => none
    | some b =>
      match s.heap[b]? with
      | none => none
      | some bn =>
        let h1 := s.heap.set b { bn with next := none }
        match bn.next with
        | some nx =>
          match h1[nx]? with
          | none => none
          | some nn =>
            some (bn.item, { s with heap := h1.set nx { nn with previous := none },
                                    back := some nx, nodes := s.nodes - 1 })
        | none =>
          some (bn.item, { s with heap := h1, front := none, back := none,
                                  nodes := s.nodes - 1 })

/-- Private member `blank_pop_front()`: `pop_front` without reading the item,
guarded by `if (!empty())` (a no-op on the empty list). -/
def blank_pop_front (s : doubly_linked_list T) : Option (doubly_linked_list T) :=
  if empty s then
    some s
  else
    match s.front with
    | none => none
    | some f =>
      match s.heap[f]? with
      | none => none
      | some fn =>
        let h1 := s.heap.set f { fn with previous := none }
        match fn.previous with
        | some p =>
          match h1[p]? with
          | none => none
          | some pn =>
            some { s with heap := h1.set p { pn with next := none },
                          front := some p, nodes := s.nodes - 1 }
        | none =>
          some { s with heap := h1, front := none, back := none,
                        nodes := s.nodes - 1 }

/-- Member `clear()`: `while (!empty()) blank_pop_front();`, with fuel for the
unbounded loop. -/
def clearLoop : Nat → doubly_linked_list T → Option (doubly_linked_list T)
  | 0, s => if empty s then some s else none
  | fuel + 1, s =>
    if empty s then some s
    else
      match blank_pop_front s with
      | none => none
      | some s' => clearLoop fuel s'

/-- Member `peek_front()`: default value on the empty list, otherwise
`front->item` without any mutation.  `none` marks the (unreachable in
well-formed states) null dereference. -/
def peek_front [Inhabited T] (s : doubly_linked_list T) : Option T :=
  if empty s then some default
  else
    match s.front with
    | none => none
    | some f => (s.heap[f]?).map (fun n => n.item)

/-- Member `peek_back()`: symmetric, reads `back->item`. -/
def peek_back [Inhabited T] (s : doubly_linked_list T) : Option T :=
  if empty s then some default
  else
    match s.back with
    | none => none
    | some b => (s.heap[b]?).map (fun n => n.item)

/-- Member `size()`: the maintained count. -/
def size (s : doubly_linked_list T) : Nat :=
  s.nodes

/-- Private member `equals(node1, node2)`: the recursive pairwise walk behind
`operator==`.  Two null pointers are equal, one null and one non-null are
unequal, otherwise the items must match and the `next` successors must be
recursively equal.  The C++ recursion has no structural bound, hence the
fuel; `none` also marks a dangling dereference. -/
def equals [DecidableEq T] (h1 h2 : List (doubly_linked_node T)) :
    Nat → Option Nat → Option Nat → Option Bool
  | _, none, none => some true
  | _, none, some _ => some false
  | _, some _, none => some false
  | 0, some _, some _ => none
  | fuel + 1, some a1, some a2 =>
    match h1[a1]?, h2[a2]? with
    | some n1, some n2 =>
      if n1.item = n2.item then equals h1 h2 fuel n1.next n2.next
      else some false
    | _, _ => none

/-- Member `operator==`: `equals(this->back.get(), rhs.back.get())`, the walk
starting at the `back` ends.  The fuel covers any terminating run of the C++
recursion on representable states (the walk takes at most
`min(nodes, rhs.nodes) + 1` calls). -/
def list_eq [DecidableEq T] (s1 s2 : doubly_linked_list T) : Option Bool :=
  equals s1.heap s2.heap (s1.nodes + s2.nodes + 1) s1.back s2.back

/-- Private member `first()`: `back.get()`, the node forward iteration starts
from.  A plain pointer read, never undefined. -/
def first (s : doubly_linked_list T) : Option Nat :=
  s.back

/-- Private member `last()`: `front.get()`. -/
def last (s : doubly_linked_list T) : Option Nat :=
  s.front

/-- Member `begin()`: `iterator(first())`. -/
def beginIt (s : doubly_linked_list T) : Option Nat :=
  first s

/-- Member `rbegin()`: `reverse_iterator(last())`. -/
def rbeginIt (s : doubly_linked_list T) : Option Nat :=
  last s

/-- Member `end()`: `iterator(next(last()))`.  The private helper
`next(current)` evaluates `current->next.get()`, so when `last()` is null
(empty list) the construction dereferences an absent node: outer `none`.
Otherwise the result is the pointer held by the one-past-the-end iterator. -/
def endIt (s : doubly_linked_list T) : Option (Option Nat) :=
  match last s with
  | none => none
  | some a => (s.heap[a]?).map (fun n => n.next)

/-- Member `rend()`: `reverse_iterator(previous(first()))`, with the same
null dereference when `first()` is null. -/
def rendIt (s : doubly_linked_list T) : Option (Option Nat) :=
  match first s with
  | none => none
  | some a => (s.heap[a]?).map (fun n => n.previous)

/-- Iterator `operator==` (`iterator_impl` lines 154-169; the reverse variant
at lines 265-280 is textually identical).  Arguments are the two wrapped node
pointers together with the heaps they point into.  Both null: equal.  Right
null only: unequal.  Left null, right non-null: the code falls through to
`*(this->node) == *(it.node)` and dereferences the null left pointer — outer
`none`.  Both non-null: node equality, i.e. item equality. -/
def iter_eq [DecidableEq T] (h1 h2 : List (doubly_linked_node T))
    (p1 p2 : Option Nat) : Option Bool :=
  match p1, p2 with
  | none, none => some true
  | some _, none => some false
  | none, some _ => none
  | some a1, some a2 =>
    match h1[a1]?, h2[a2]? with
    | some n1, some n2 => some (node_eq n1 n2)
    | _, _ => none

/-- Forward iteration loop `for (it = begin(); it != end(); ++it) yield *it;`
over one list: each round compares the cursor with the given end cursor using
the iterator equality above, then dereferences and advances.  Fuel bounds the
number of guard evaluations. -/
def iterLoop [DecidableEq T] (heap : List (doubly_linked_node T))
    (e : Option Nat) : Nat → Option Nat → Option (List T)
  | 0, _ => none
  | fuel + 1, p =>
    match iter_eq heap heap p e with
    | none => none
    | some true => some []
    | some false =>
      match p with
      | none => none
      | some a =>
        match heap[a]? with
        | none => none
        | some n => (iterLoop heap e fuel n.next).map (fun l => n.item :: l)

/-- Forward iteration of a whole list: construct `end()` (undefined on the
empty list), then run the loop from `begin()`.  `nodes + 1` guard evaluations
suffice for any representable state. -/
def iterate [DecidableEq T] (s : doubly_linked_list T) : Option (List T) :=
  match endIt s with
  | none => none
  | some e => iterLoop s.heap e (s.nodes + 1) (beginIt s)

/-- Pointer walk following `next` from a given pointer until null, yielding
the items.  This is the chain traversal every iteration-based member performs
(copy construction, concatenation, `std::equal` over `[begin, end)` on a
non-empty list). -/
def walk (heap : List (doubly_linked_node T)) : Nat → Option Nat → Option (List T)
  | _, none => some []
  | 0, some _ => none
  | fuel + 1, some a =>
    match heap[a]? with
    | none => none
    | some n => (walk heap fuel n.next).map (fun l => n.item :: l)

/-- Pointer walk following `next` from a given pointer until null, yielding
the addresses visited: the nodes reachable by walking from the `back` end to
the `front` end. -/
def walk_addrs (heap : List (doubly_linked_node T)) :
    Nat → Option Nat → Option (List Nat)
  | _, none => some []
  | 0, some _ => none
  | fuel + 1, some a =>
    match heap[a]? with
    | none => none
    | some n => (walk_addrs heap fuel n.next).map (fun l => a :: l)

/-- Loop body of `operator+=` for a right-hand side that is a distinct
object: `node = rhs.back; while (node) { push_back(node->item); node =
node->next; }`.  The walk reads `rhs`, which the loop never mutates. -/
def plusEqLoop (rhs : doubly_linked_list T) :
    Nat → doubly_linked_list T → Option Nat → Option (doubly_linked_list T)
  | _, s, none => some s
  | 0, _, some _ => none
  | fuel + 1, s, some a =>
    match rhs.heap[a]? with
    | none => none
    | some n =>
      match push_back s n.item with
      | none => none
      | some s' => plusEqLoop rhs fuel s' n.next

/-- Member `operator+=` with a right-hand side distinct from `*this`: the
`if (!rhs.empty())` guard followed by the walk-and-push loop.  The member
`operator+` is literally `return *this += rhs;`, so this models it too. -/
def plus_eq (fuel : Nat) (s rhs : doubly_linked_list T) :
    Option (doubly_linked_list T) :=
  if empty rhs then some s
  else plusEqLoop rhs fuel s rhs.back

/-- Loop body of `operator+=` when the right-hand side IS `*this` (self
append, `a += a`).  The only difference from `plusEqLoop` is aliasing: after
each `push_back` the walk reads `node->next` from the mutated heap, because
`node` points into the very list being extended. -/
def plusEqSelfLoop : Nat → doubly_linked_list T → Option Nat →
    Option (doubly_linked_list T)
  | _, s, none => some s
  | 0, _, some _ => none
  | fuel + 1, s, some a =>
    match s.heap[a]? with
    | none => none
    | some n =>
      match push_back s n.item with
      | none => none
      | some s' =>
        match s'.heap[a]? with
        | none => none
        | some n' => plusEqSelfLoop fuel s' n'.next

/-- Member `operator+=` applied to itself: `a += a`. -/
def plus_eq_self (fuel : Nat) (s : doubly_linked_list T) :
    Option (doubly_linked_list T) :=
  if empty s then some s
  else plusEqSelfLoop fuel s s.back

/-- Copy constructor: starts from a default-constructed state and replays
`other`'s items with `push_back`, walking `other.back` through `next`. -/
def copy_ctor (fuel : Nat) (other : doubly_linked_list T) :
    Option (doubly_linked_list T) :=
  plusEqLoop other fuel new_list other.back

/-- Move constructor: the new object takes the three members; the moved-from
shared pointers become null and the count is reset, leaving the source in the
canonical empty state (its heap content is unreachable garbage).  Returns
(constructed object, source after the move). -/
def move_ctor (other : doubly_linked_list T) :
    doubly_linked_list T × doubly_linked_list T :=
  ({ heap := other.heap, front := other.front, back := other.back,
     nodes := other.nodes },
   { heap := other.heap, front := none, back := none, nodes := 0 })

/-- Copy assignment `operator=(doubly_linked_list rhs)`: the by-value
parameter is copy-constructed from the right-hand side, then swapped into
`*this`, so the resulting state of `*this` is exactly that copy (the previous
state of the left-hand side is handed to the temporary and destroyed). -/
def copy_assign (fuel : Nat) (_lhs rhs : doubly_linked_list T) :
    Option (doubly_linked_list T) :=
  copy_ctor fuel rhs

/-- Move assignment: the by-value parameter is move-constructed from the
right-hand side, then swapped into `*this`.  Returns (new state of `*this`,
state of the source after the move). -/
def move_assign (_lhs rhs : doubly_linked_list T) :
    doubly_linked_list T × doubly_linked_list T :=
  move_ctor rhs

/-- Free function `operator+(lhs, rhs)`: copy-constructs `result` from `lhs`
and returns `result += rhs`. -/
def op_plus (fuelCopy fuelAppend : Nat) (lhs rhs : doubly_linked_list T) :
    Option (doubly_linked_list T) :=
  match copy_ctor fuelCopy lhs with
  | none => none
  | some r => plus_eq fuelAppend r rhs

/-- Push every element of a sequence with `push_back`, left to right: the
pattern of the unit tests (`std::back_inserter`). -/
def push_back_all (s : doubly_linked_list T) :
    List T → Option (doubly_linked_list T)
  | [] => some s
  | x :: xs =>
    match push_back s x with
    | none => none
    | some s' => push_back_all s' xs

/-- Push every element of a sequence with `push_front`, left to right
(`std::front_inserter`). -/
def push_front_all (s : doubly_linked_list T) :
    List T → Option (doubly_linked_list T)
  | [] => some s
  | x :: xs =>
    match push_front s x with
    | none => none
    | some s' => push_front_all s' xs

/-- Pop `n` times with `pop_front`, collecting the returned values. -/
def pop_front_n [Inhabited T] (s : doubly_linked_list T) :
    Nat → Option (List T × doubly_linked_list T)
  | 0 => some ([], s)
  | n + 1 =>
    match pop_front s with
    | none => none
    | some (x, s') =>
      match pop_front_n s' n with
      | none => none
      | some (xs, s'') => some (x :: xs, s'')

/-- Pop `n` times with `pop_back`, collecting the returned values. -/
def pop_back_n [Inhabited T] (s : doubly_linked_list T) :
    Nat → Option (List T × doubly_linked_list T)
  | 0 => some ([], s)
  | n + 1 =>
    match pop_back s with
    | none => none
    | some (x, s') =>
      match pop_back_n s' n with
      | none => none
      | some (xs, s'') => some (x :: xs, s'')

/-- Representation predicate for the doubly-linked chain: `node_chain heap
prev addrs l` holds when the nodes at the addresses `addrs` are all present
in `heap`, carry the items `l` in order, are linked forward through `next`
(the last node's `next` is null), and are linked backward through `previous`
(the first node's `previous` is `prev`). -/
def node_chain [DecidableEq T] (heap : List (doubly_linked_node T))
    (prev : Option Nat) : List Nat → List T → Bool
  | [], [] => true
  | a :: rest, x :: xs =>
    match heap[a]? with
    | none => false
    | some n =>
      n.item == x && n.previous == prev && n.next == rest.head? &&
        node_chain heap (some a) rest xs
  | _, _ => false

/-- Well-formedness of a list state: its fields describe a doubly-linked
chain of distinct, in-bounds addresses carrying the items `l`; `back` is the
chain's first address, `front` its last, and the count is its length. -/
def list_rep [DecidableEq T] (s : doubly_linked_list T)
    (addrs : List Nat) (l : List T) : Prop :=
  node_chain s.heap none addrs l = true ∧
  s.back = addrs.head? ∧
  s.front = addrs.getLast? ∧
  s.nodes = addrs.length ∧
  addrs.Nodup ∧
  ∀ a ∈ addrs, a < s.heap.length

/-- Representation invariants exactly as the specification states them: the
two end links are absent together and exactly when the count is zero (and
`empty()` agrees); the count equals the number of nodes reachable by walking
from the `back` end through `next`; every reachable node's `next` and
`previous` neighbors point back at it; a one-element list has both end links
on a single node whose own links are absent. -/
def invariants [DecidableEq T] (s : doubly_linked_list T) : Prop :=
  ((s.front = none ↔ s.back = none) ∧ (s.back = none ↔ s.nodes = 0) ∧
    (empty s = true ↔ s.nodes = 0)) ∧
  (∃ addrs, walk_addrs s.heap s.nodes s.back = some addrs ∧
    addrs.length = s.nodes) ∧
  (∀ addrs, walk_addrs s.heap s.nodes s.back = some addrs →
    ∀ a ∈ addrs, ∀ n, s.heap[a]? = some n →
      (∀ b, n.next = some b →
        ∃ m, s.heap[b]? = some m ∧ m.previous = some a) ∧
      (∀ c, n.previous = some c →
        ∃ m, s.heap[c]? = some m ∧ m.next = some a)) ∧
  (s.nodes = 1 → s.front = s.back ∧
    ∃ a n, s.back = some a ∧ s.heap[a]? = some n ∧
      n.previous = none ∧ n.next = none)

/-- Concrete one-element list holding `1`, for witnesses. -/
def A1 : doubly_linked_list Int :=
  { heap := [{ item := 1 }], front := some 0, back := some 0, nodes := 1 }

/-- Concrete one-element list holding `2`, for witnesses. -/
def B1 : doubly_linked_list Int :=
  { heap := [{ item := 2 }], front := some 0, back := some 0, nodes := 1 }

/-! Basic lemmas about the chain representation predicate. -/

variable [DecidableEq T]

theorem node_chain_nil_nil (heap : List (doubly_linked_node T)) (prev : Option Nat) :
    node_chain heap prev [] [] = true := rfl

theorem node_chain_nil_cons (heap : List (doubly_linked_node T)) (prev : Option Nat)
    (x : T) (xs : List T) : node_chain heap prev [] (x :: xs) = false := rfl

theorem node_chain_cons_nil (heap : List (doubly_linked_node T)) (prev : Option Nat)
    (a : Nat) (rest : List Nat) : node_chain heap prev (a :: rest) [] = false := rfl

theorem node_chain_cons_cons {heap : List (doubly_linked_node T)} {prev : Option Nat}
    {a : Nat} {rest : List Nat} {x : T} {xs : List T} :
    node_chain heap prev (a :: rest) (x :: xs) = true ↔
      ∃ n, heap[a]? = some n ∧ n.item = x ∧ n.previous = prev ∧
        n.next = rest.head? ∧ node_chain heap (some a) rest xs = true := by
  cases hh : heap[a]? with
  | none => simp [node_chain, hh]
  | some n => simp [node_chain, hh, Bool.and_eq_true, beq_iff_eq, and_assoc]

theorem chain_length {heap : List (doubly_linked_node T)} {prev : Option Nat}
    {addrs : List Nat} {l : List T} (h : node_chain heap prev addrs l = true) :
    addrs.length = l.length := by
  induction addrs generalizing prev l with
  | nil =>
    cases l with
    | nil => rfl
    | cons x xs => simp [node_chain_nil_cons] at h
  | cons a rest ih =>
    cases l with
    | nil => simp [node_chain_cons_nil] at h
    | cons x xs =>
      obtain ⟨n, _, _, _, _, hc⟩ := node_chain_cons_cons.mp h
      simpa using ih hc

theorem chain_congr {h1 h2 : List (doubly_linked_node T)} {prev : Option Nat}
    {addrs : List Nat} {l : List T}
    (hl : ∀ a ∈ addrs, h2[a]? = h1[a]?)
    (h : node_chain h1 prev addrs l = true) :
    node_chain h2 prev addrs l = true := by
  induction addrs generalizing prev l with
  | nil =>
    cases l with
    | nil => rfl
    | cons x xs => simp [node_chain_nil_cons] at h
  | cons a rest ih =>
    cases l with
    | nil => simp [node_chain_cons_nil] at h
    | cons x xs =>
      obtain ⟨n, hn, hi, hp, hx, hc⟩ := node_chain_cons_cons.mp h
      exact node_chain_cons_cons.mpr
        ⟨n, (hl a (by simp)).trans hn, hi, hp, hx,
          ih (fun b hb => hl b (by simp [hb])) hc⟩

theorem chain_get {heap : List (doubly_linked_node T)} {prev : Option Nat}
    {addrs : List Nat} {l : List T}
    (h : node_chain heap prev addrs l = true) :
    ∀ k a, addrs[k]? = some a →
      ∃ n, heap[a]? = some n ∧ l[k]? = some n.item ∧ n.next = addrs[k + 1]? ∧
        n.previous = (match k with | 0 => prev | k' + 1 => addrs[k']?) := by
  induction addrs generalizing prev l with
  | nil => intro k a hk; simp at hk
  | cons a0 rest ih =>
    cases l with
    | nil => simp [node_chain_cons_nil] at h
    | cons x xs =>
      obtain ⟨n, hn, hi, hp, hx, hc⟩ := node_chain_cons_cons.mp h
      intro k a hk
      cases k with
      | zero =>
        simp only [List.getElem?_cons_zero, Option.some.injEq] at hk
        subst hk
        refine ⟨n, hn, by simp [hi], ?_, hp⟩
        simpa [List.head?_eq_getElem?] using hx
      | succ k' =>
        simp only [List.getElem?_cons_succ] at hk
        obtain ⟨m, hm, hmi, hmx, hmp⟩ := ih hc k' a hk
        refine ⟨m, hm, by simpa using hmi, by simpa using hmx, ?_⟩
        cases k' with
        | zero => simpa using hmp
        | succ k'' => simpa using hmp

/-! Preservation of well-formedness by the push operations. -/

theorem rep_empty_nil {s : doubly_linked_list T} {l : List T}
    (h : list_rep s [] l) : empty s = true := by
  obtain ⟨_, hb, hf, hn, _, _⟩ := h
  simp [empty, hb, hf, hn]

theorem rep_empty_cons {s : doubly_linked_list T} {a : Nat} {rest : List Nat}
    {l : List T} (h : list_rep s (a :: rest) l) : empty s = false := by
  obtain ⟨_, hb, _, _, _, _⟩ := h
  simp [empty, hb]

theorem chain_snoc {heap : List (doubly_linked_node T)} {prev : Option Nat}
    {addrs : List Nat} {l : List T} {f : Nat} {fn : doubly_linked_node T} (x : T)
    (h : node_chain heap prev addrs l = true)
    (hlast : addrs.getLast? = some f)
    (hfn : heap[f]? = some fn)
    (hnd : addrs.Nodup)
    (hbd : ∀ a ∈ addrs, a < heap.length) :
    node_chain
      ((heap ++ [({ item := x, previous := some f } : doubly_linked_node T)]).set f
        { fn with next := some heap.length })
      prev (addrs ++ [heap.length]) (l ++ [x]) = true := by
  induction addrs generalizing prev l with
  | nil => simp at hlast
  | cons a rest ih =>
    cases l with
    | nil => simp [node_chain_cons_nil] at h
    | cons x0 xs =>
      obtain ⟨n, hn, hi, hp, hx, hc⟩ := node_chain_cons_cons.mp h
      have ha : a < heap.length := hbd a (by simp)
      cases rest with
      | nil =>
        have hfa : a = f := by simpa using hlast
        subst f
        have hfn' : fn = n := by rw [hfn] at hn; exact (Option.some.injEq ..).mp hn
        subst hfn'
        cases xs with
        | cons y ys => simp [node_chain_nil_cons] at hc
        | nil =>
          refine node_chain_cons_cons.mpr ⟨{ fn with next := some heap.length }, ?_, ?_⟩
          · exact List.getElem?_set_self (by simpa using Nat.lt_succ_of_lt ha)
          · refine ⟨hi, hp, by simp, ?_⟩
            refine node_chain_cons_cons.mpr
              ⟨{ item := x, previous := some a, next := none }, ?_, rfl, rfl, rfl, rfl⟩
            rw [List.getElem?_set_ne (Nat.ne_of_lt ha)]
            exact List.getElem?_concat_length heap _
      | cons b rest' =>
        have hlast' : (b :: rest').getLast? = some f := by
          simpa [List.getLast?_cons_cons] using hlast
        have hmem : f ∈ b :: rest' := List.mem_of_getLast?_eq_some hlast'
        have hanb : a ∉ b :: rest' := by
          simpa using (List.nodup_cons.mp hnd).1
        have haf : a ≠ f := fun hh => hanb (hh ▸ hmem)
        refine node_chain_cons_cons.mpr ⟨n, ?_, hi, hp, ?_, ?_⟩
        · rw [List.getElem?_set_ne (Ne.symm haf), List.getElem?_append_left ha]
          exact hn
        · simpa using hx
        · exact ih hc hlast' (List.nodup_cons.mp hnd).2
            (fun c hc' => hbd c (by simp [hc']))

theorem push_back_rep {s : doubly_linked_list T} {addrs : List Nat} {l : List T}
    (h : list_rep s addrs l) (x : T) :
    ∃ s', push_back s x = some s' ∧ s'.heap.length = s.heap.length + 1 ∧
      list_rep s' (addrs ++ [s.heap.length]) (l ++ [x]) := by
  obtain ⟨hc, hb, hf, hn, hnd, hbd⟩ := h
  cases addrs with
  | nil =>
    cases l with
    | cons y ys => simp [node_chain_nil_cons] at hc
    | nil =>
      have he : empty s = true := rep_empty_nil ⟨hc, hb, hf, hn, hnd, hbd⟩
      have hpb : push_back s x =
          some { heap := s.heap ++ [{ item := x }],
                 front := some s.heap.length, back := some s.heap.length,
                 nodes := s.nodes + 1 } := by
        simp [push_back, he]
      refine ⟨_, hpb, by simp, ?_, by simp [List.head?], ?_, by simpa using hn, by simp, ?_⟩
      · exact node_chain_cons_cons.mpr
          ⟨{ item := x }, List.getElem?_concat_length s.heap _, rfl, rfl, rfl, rfl⟩
      · show some s.heap.length = [s.heap.length].getLast?
        simp [List.getLast?]
      · intro a ha
        have haL : a = s.heap.length := by simpa using ha
        subst haL
        simp
  | cons a0 rest =>
    have he : empty s = false := rep_empty_cons ⟨hc, hb, hf, hn, hnd, hbd⟩
    have hne : (a0 :: rest) ≠ ([] : List Nat) := by simp
    obtain ⟨f, hfl⟩ := Option.isSome_iff_exists.mp (List.getLast?_isSome.mpr hne)
    have hkf : (a0 :: rest)[(a0 :: rest).length - 1]? = some f := by
      rw [← List.getLast?_eq_getElem?]; exact hfl
    obtain ⟨fn, hfn, _, _, _⟩ := chain_get hc _ f hkf
    have hpb : push_back s x =
        some { heap := (s.heap ++ [({ item := x, previous := some f } :
                 doubly_linked_node T)]).set f { fn with next := some s.heap.length },
               front := some s.heap.length, back := s.back,
               nodes := s.nodes + 1 } := by
      simp [push_back, he, hf, hfl, hfn]
    refine ⟨_, hpb, by simp, ?_, by simpa using hb,
      by rw [List.getLast?_concat], by simpa using hn, ?_, ?_⟩
    · exact chain_snoc x hc hfl hfn hnd hbd
    · refine List.nodup_append.mpr ⟨hnd, by simp, ?_⟩
      intro c hcmem
      have := hbd c hcmem
      simp only [List.mem_singleton]
      omega
    · intro c hcmem
      simp only [List.length_set, List.length_append, List.length_singleton]
      rcases List.mem_append.mp hcmem with hcl | hcr
      · exact Nat.lt_succ_of_lt (hbd c hcl)
      · simp only [List.mem_singleton] at hcr
        omega

theorem chain_push_front {heap : List (doubly_linked_node T)} {b : Nat}
    {rest : List Nat} {l : List T} {bn : doubly_linked_node T} (x : T)
    (hc : node_chain heap none (b :: rest) l = true)
    (hbn : heap[b]? = some bn)
    (hnd : (b :: rest).Nodup)
    (hbd : ∀ a ∈ b :: rest, a < heap.length) :
    node_chain
      ((heap ++ [({ item := x, next := some b } : doubly_linked_node T)]).set b
        { bn with previous := some heap.length })
      none (heap.length :: b :: rest) (x :: l) = true := by
  cases l with
  | nil => simp [node_chain_cons_nil] at hc
  | cons x0 xs =>
    obtain ⟨n, hn, hi, hp, hx, hrest⟩ := node_chain_cons_cons.mp hc
    have hb : b < heap.length := hbd b (by simp)
    have hbn' : bn = n := by rw [hbn] at hn; exact (Option.some.injEq ..).mp hn
    subst hbn'
    refine node_chain_cons_cons.mpr
      ⟨{ item := x, next := some b }, ?_, rfl, rfl, by simp [List.head?], ?_⟩
    · rw [List.getElem?_set_ne (Nat.ne_of_lt hb)]
      exact List.getElem?_concat_length heap _
    · refine node_chain_cons_cons.mpr
        ⟨{ bn with previous := some heap.length }, ?_, hi, rfl, hx, ?_⟩
      · exact List.getElem?_set_self (by simpa using Nat.lt_succ_of_lt hb)
      · refine chain_congr ?_ hrest
        intro a ha
        have hab : a ≠ b := by
          intro hh
          exact (List.nodup_cons.mp hnd).1 (hh ▸ ha)
        have haL : a < heap.length := hbd a (by simp [ha])
        rw [List.getElem?_set_ne (Ne.symm hab), List.getElem?_append_left haL]

theorem push_front_rep {s : doubly_linked_list T} {addrs : List Nat} {l : List T}
    (h : list_rep s addrs l) (x : T) :
    ∃ s', push_front s x = some s' ∧ s'.heap.length = s.heap.length + 1 ∧
      list_rep s' (s.heap.length :: addrs) (x :: l) := by
  obtain ⟨hc, hb, hf, hn, hnd, hbd⟩ := h
  cases addrs with
  | nil =>
    cases l with
    | cons y ys => simp [node_chain_nil_cons] at hc
    | nil =>
      have he : empty s = true := rep_empty_nil ⟨hc, hb, hf, hn, hnd, hbd⟩
      have hpf : push_front s x =
          some { heap := s.heap ++ [{ item := x }],
                 front := some s.heap.length, back := some s.heap.length,
                 nodes := s.nodes + 1 } := by
        simp [push_front, he]
      refine ⟨_, hpf, by simp, ?_, by simp [List.head?], ?_, by simpa using hn, by simp, ?_⟩
      · exact node_chain_cons_cons.mpr
          ⟨{ item := x }, List.getElem?_concat_length s.heap _, rfl, rfl, rfl, rfl⟩
      · show some s.heap.length = [s.heap.length].getLast?
        simp [List.getLast?]
      · intro a ha
        have haL : a = s.heap.length := by simpa using ha
        subst haL
        simp
  | cons a0 rest =>
    have he : empty s = false := rep_empty_cons ⟨hc, hb, hf, hn, hnd, hbd⟩
    have hba : s.back = some a0 := by simpa [List.head?] using hb
    obtain ⟨bn, hbn, _, _, _⟩ := chain_get hc 0 a0 (by simp)
    have hpf : push_front s x =
        some { heap := (s.heap ++ [({ item := x, next := some a0 } :
                 doubly_linked_node T)]).set a0 { bn with previous := some s.heap.length },
               front := s.front, back := some s.heap.length,
               nodes := s.nodes + 1 } := by
      simp [push_front, he, hba, hbn]
    refine ⟨_, hpf, by simp, ?_, by simp [List.head?], ?_, by simpa using hn, ?_, ?_⟩
    · exact chain_push_front x hc hbn hnd hbd
    · show s.front = (s.heap.length :: a0 :: rest).getLast?
      rw [List.getLast?_cons_cons]
      exact hf
    · refine List.nodup_cons.mpr ⟨?_, hnd⟩
      intro hmem
      have := hbd _ hmem
      omega
    · intro c hcmem
      simp only [List.length_set, List.length_append, List.length_singleton]
      rcases List.mem_cons.mp hcmem with hcl | hcr
      · omega
      · exact Nat.lt_succ_of_lt (hbd c hcr)

/-! Preservation of well-formedness by the pop operations and by clear. -/

theorem rep_empty_ne_nil {s : doubly_linked_list T} {addrs : List Nat} {l : List T}
    (h : list_rep s addrs l) (hne : addrs ≠ []) : empty s = false := by
  cases addrs with
  | nil => exact absurd rfl hne
  | cons a rest => exact rep_empty_cons h

theorem chain_drop_last {heap h2 : List (doubly_linked_node T)} {prev : Option Nat}
    {addrs' : List Nat} {l' : List T} {f : Nat} {x : T} {p : Nat}
    {pn : doubly_linked_node T}
    (h : node_chain heap prev (addrs' ++ [f]) (l' ++ [x]) = true)
    (hnd : addrs'.Nodup)
    (hlook : ∀ a ∈ addrs', h2[a]? = heap[a]?)
    (hp : addrs'.getLast? = some p)
    (hpn : h2[p]? = some pn) :
    node_chain (h2.set p { pn with next := none }) prev addrs' l' = true := by
  induction addrs' generalizing prev l' with
  | nil => simp at hp
  | cons a restA ih =>
    have hlen := chain_length h
    cases l' with
    | nil =>
      exfalso
      simp only [List.length_append, List.length_cons, List.length_singleton,
        List.length_nil, List.nil_append] at hlen
      omega
    | cons y ys =>
      rw [List.cons_append, List.cons_append] at h
      obtain ⟨n, hn, hi, hpr, hx, hrest⟩ := node_chain_cons_cons.mp h
      cases restA with
      | nil =>
        have hpa : a = p := by simpa using hp
        subst a
        cases ys with
        | cons z zs =>
          exfalso
          simp only [List.length_append, List.length_cons, List.length_singleton,
            List.length_nil, List.nil_append] at hlen
          omega
        | nil =>
          have hpn' : pn = n := by
            rw [hlook p (by simp), hn] at hpn
            exact ((Option.some.injEq ..).mp hpn).symm
          subst hpn'
          have hplt : p < h2.length := (List.getElem?_eq_some.mp hpn).1
          exact node_chain_cons_cons.mpr
            ⟨{ pn with next := none }, List.getElem?_set_self hplt, hi, hpr, rfl, rfl⟩
      | cons b restB =>
        have hpmem : p ∈ b :: restB :=
          List.mem_of_getLast?_eq_some (by simpa [List.getLast?_cons_cons] using hp)
        have hanb : a ∉ b :: restB := (List.nodup_cons.mp hnd).1
        have hap : a ≠ p := fun hh => hanb (hh ▸ hpmem)
        refine node_chain_cons_cons.mpr ⟨n, ?_, hi, hpr, by simpa using hx, ?_⟩
        · rw [List.getElem?_set_ne (Ne.symm hap)]
          exact (hlook a (by simp)).trans hn
        · exact ih hrest (List.nodup_cons.mp hnd).2
            (fun c hcm => hlook c (by simp [hcm]))
            (by simpa [List.getLast?_cons_cons] using hp)

theorem chain_drop_head {heap h2 : List (doubly_linked_node T)} {prevOld : Option Nat}
    {nx : Nat} {rest : List Nat} {l' : List T} {nn : doubly_linked_node T}
    (hc : node_chain heap prevOld (nx :: rest) l' = true)
    (hnd : (nx :: rest).Nodup)
    (hlook : ∀ a ∈ nx :: rest, h2[a]? = heap[a]?)
    (hnn : h2[nx]? = some nn) :
    node_chain (h2.set nx { nn with previous := none }) none (nx :: rest) l' = true := by
  cases l' with
  | nil => simp [node_chain_cons_nil] at hc
  | cons y ys =>
    obtain ⟨n, hn, hi, _, hx, hrest⟩ := node_chain_cons_cons.mp hc
    have hnn' : nn = n := by
      rw [hlook nx (by simp), hn] at hnn
      exact ((Option.some.injEq ..).mp hnn).symm
    subst hnn'
    have hlt : nx < h2.length := (List.getElem?_eq_some.mp hnn).1
    refine node_chain_cons_cons.mpr
      ⟨{ nn with previous := none }, List.getElem?_set_self hlt, hi, rfl, hx, ?_⟩
    refine chain_congr ?_ hrest
    intro a ha
    have hanx : a ≠ nx := by
      intro hh
      exact (List.nodup_cons.mp hnd).1 (hh ▸ ha)
    rw [List.getElem?_set_ne (Ne.symm hanx)]
    exact hlook a (by simp [ha])

theorem pop_front_rep_snoc [Inhabited T] {s : doubly_linked_list T}
    {addrs' : List Nat} {f : Nat} {l' : List T} {x : T}
    (h : list_rep s (addrs' ++ [f]) (l' ++ [x])) :
    ∃ s', pop_front s = some (x, s') ∧ s'.heap.length = s.heap.length ∧
      list_rep s' addrs' l' := by
  obtain ⟨hc, hb, hf, hn, hnd, hbd⟩ := h
  have hlen : addrs'.length = l'.length := by
    have := chain_length hc
    simp only [List.length_append, List.length_singleton] at this
    omega
  have he : empty s = false :=
    rep_empty_ne_nil ⟨hc, hb, hf, hn, hnd, hbd⟩ (by simp)
  have hffront : s.front = some f := by rw [hf, List.getLast?_concat]
  have hkf : (addrs' ++ [f])[addrs'.length]? = some f :=
    List.getElem?_concat_length addrs' f
  obtain ⟨fn, hfn, hitem, _, hfprev⟩ := chain_get hc addrs'.length f hkf
  have hitem' : fn.item = x := by
    rw [hlen, List.getElem?_concat_length] at hitem
    exact ((Option.some.injEq ..).mp hitem).symm
  subst x
  have hfnotin : f ∉ addrs' := by
    have := List.nodup_append.mp hnd
    intro hmem
    exact this.2.2 hmem (by simp)
  cases addrs' with
  | nil =>
    cases l' with
    | cons z zs => simp at hlen
    | nil =>
      have hprev : fn.previous = none := by simpa using hfprev
      have hpop : pop_front s =
          some (fn.item, { s with heap := s.heap.set f { fn with previous := none },
                                  front := none, back := none,
                                  nodes := s.nodes - 1 }) := by
        simp [pop_front, he, hffront, hfn, hprev]
      exact ⟨_, hpop, by simp, node_chain_nil_nil _ _, rfl, rfl,
        by simp [hn], by simp, by simp⟩
  | cons q restQ =>
    have hqlen : (q :: restQ).length - 1 < (q :: restQ).length := by simp
    obtain ⟨p, hp⟩ := Option.isSome_iff_exists.mp
      (List.getLast?_isSome.mpr (List.cons_ne_nil q restQ))
    have hprev : fn.previous = some p := by
      have h1 : (q :: restQ).length = ((q :: restQ).length - 1) + 1 := by simp
      rw [h1] at hfprev
      rw [hfprev]
      show ((q :: restQ) ++ [f])[(q :: restQ).length - 1]? = some p
      rw [List.getElem?_append_left hqlen, ← List.getLast?_eq_getElem?]
      exact hp
    have hpmem : p ∈ q :: restQ := List.mem_of_getLast?_eq_some hp
    obtain ⟨kp, hkp⟩ := List.mem_iff_getElem?.mp hpmem
    obtain ⟨pn, hpn, _, _, _⟩ := chain_get hc kp p
      (by rw [List.getElem?_append_left (List.getElem?_eq_some.mp hkp).1]; exact hkp)
    have hlook : ∀ a ∈ q :: restQ,
        (s.heap.set f { fn with previous := none })[a]? = s.heap[a]? := by
      intro a ha
      have haf : a ≠ f := fun hh => hfnotin (hh ▸ ha)
      exact List.getElem?_set_ne (Ne.symm haf)
    have hpn1 : (s.heap.set f { fn with previous := none })[p]? = some pn :=
      (hlook p hpmem).trans hpn
    have hpop : pop_front s =
        some (fn.item, { s with
          heap := (s.heap.set f { fn with previous := none }).set p
                    { pn with next := none },
          front := some p, nodes := s.nodes - 1 }) := by
      simp [pop_front, he, hffront, hfn, hprev, hpn1]
    refine ⟨_, hpop, by simp, ?_, ?_, ?_, ?_, ?_, ?_⟩
    · exact chain_drop_last hc (List.nodup_append.mp hnd).1 hlook hp hpn1
    · simpa using hb
    · simpa using hp.symm
    · simpa using hn
    · exact (List.nodup_append.mp hnd).1
    · intro c hcm
      simp only [List.length_set]
      exact hbd c (List.mem_append_left _ hcm)

theorem pop_back_rep_cons [Inhabited T] {s : doubly_linked_list T}
    {b : Nat} {addrs' : List Nat} {x : T} {l' : List T}
    (h : list_rep s (b :: addrs') (x :: l')) :
    ∃ s', pop_back s = some (x, s') ∧ s'.heap.length = s.heap.length ∧
      list_rep s' addrs' l' := by
  obtain ⟨hc, hb, hf, hn, hnd, hbd⟩ := h
  have he : empty s = false :=
    rep_empty_ne_nil ⟨hc, hb, hf, hn, hnd, hbd⟩ (by simp)
  have hback : s.back = some b := by simpa [List.head?] using hb
  obtain ⟨bn, hbn, hitem, hbnext, _⟩ := chain_get hc 0 b (by simp)
  have hitem' : bn.item = x := by
    simp only [List.getElem?_cons_zero, Option.some.injEq] at hitem
    exact hitem.symm
  subst x
  have hbnotin : b ∉ addrs' := (List.nodup_cons.mp hnd).1
  obtain ⟨n0, hn0, hi0, hp0, hx0, hrest0⟩ := node_chain_cons_cons.mp hc
  have hn0b : n0 = bn := by
    rw [hbn] at hn0
    exact ((Option.some.injEq ..).mp hn0).symm
  subst n0
  cases addrs' with
  | nil =>
    cases l' with
    | cons z zs => simp [node_chain_nil_cons] at hrest0
    | nil =>
      have hnext : bn.next = none := by simpa using hx0
      have hpop : pop_back s =
          some (bn.item, { s with heap := s.heap.set b { bn with next := none },
                                  front := none, back := none,
                                  nodes := s.nodes - 1 }) := by
        simp [pop_back, he, hback, hbn, hnext]
      exact ⟨_, hpop, by simp, node_chain_nil_nil _ _, rfl, rfl,
        by simp [hn], by simp, by simp⟩
  | cons nx restN =>
    cases l' with
    | nil => simp [node_chain_cons_nil] at hrest0
    | cons y ys =>
      have hnext : bn.next = some nx := by simpa [List.head?] using hx0
      have hlook : ∀ a ∈ nx :: restN,
          (s.heap.set b { bn with next := none })[a]? = s.heap[a]? := by
        intro a ha
        have hab : a ≠ b := fun hh => hbnotin (hh ▸ ha)
        exact List.getElem?_set_ne (Ne.symm hab)
      obtain ⟨nn, hnn, _, _, _⟩ := chain_get hrest0 0 nx (by simp)
      have hnn1 : (s.heap.set b { bn with next := none })[nx]? = some nn :=
        (hlook nx (by simp)).trans hnn
      have hpop : pop_back s =
          some (bn.item, { s with
            heap := (s.heap.set b { bn with next := none }).set nx
                      { nn with previous := none },
            back := some nx, nodes := s.nodes - 1 }) := by
        simp [pop_back, he, hback, hbn, hnext, hnn1]
      refine ⟨_, hpop, by simp, ?_, rfl, ?_, ?_, ?_, ?_⟩
      · exact chain_drop_head hrest0 (List.nodup_cons.mp hnd).2 hlook hnn1
      · show s.front = (nx :: restN).getLast?
        rw [hf, List.getLast?_cons_cons]
      · simpa using hn
      · exact (List.nodup_cons.mp hnd).2
      · intro c hcm
        simp only [List.length_set]
        exact hbd c (by simp [hcm])

omit [DecidableEq T] in
theorem blank_pop_front_eq [Inhabited T] (s : doubly_linked_list T) :
    blank_pop_front s = (pop_front s).map Prod.snd := by
  unfold blank_pop_front pop_front
  by_cases he : empty s
  · simp [he]
  · simp only [he, Bool.false_eq_true, if_false]
    cases hsf : s.front with
    | none => simp [hsf]
    | some f =>
      cases hfn : s.heap[f]? with
      | none => simp [hsf, hfn]
      | some fn =>
        cases hprev : fn.previous with
        | none => simp [hsf, hfn, hprev]
        | some p =>
          cases hpn : (s.heap.set f { fn with previous := none })[p]? with
          | none => simp [hsf, hfn, hprev, hpn]
          | some pn => simp [hsf, hfn, hprev, hpn]

theorem clearLoop_rep [Inhabited T] {fuel : Nat} {s : doubly_linked_list T}
    {addrs : List Nat} {l : List T}
    (h : list_rep s addrs l) (hfuel : addrs.length ≤ fuel) :
    ∃ s', clearLoop fuel s = some s' ∧ list_rep s' [] [] := by
  induction fuel generalizing s addrs l with
  | zero =>
    cases addrs with
    | cons a rest => simp at hfuel
    | nil =>
      cases l with
      | cons y ys => exact absurd h.1 (by simp [node_chain_nil_cons])
      | nil => exact ⟨s, by simp [clearLoop, rep_empty_nil h], h⟩
  | succ fuel ih =>
    cases addrs with
    | nil =>
      cases l with
      | cons y ys => exact absurd h.1 (by simp [node_chain_nil_cons])
      | nil => exact ⟨s, by simp [clearLoop, rep_empty_nil h], h⟩
    | cons a rest =>
      have he : empty s = false := rep_empty_ne_nil h (by simp)
      rcases List.eq_nil_or_concat (a :: rest) with hnil | ⟨addrs', f, hsplit⟩
      · simp at hnil
      · have hlen := chain_length h.1
        rcases List.eq_nil_or_concat l with hlnil | ⟨l', x, hlsplit⟩
        · rw [hsplit, hlnil] at hlen
          simp at hlen
        · rw [List.concat_eq_append] at hsplit hlsplit
          rw [hsplit, hlsplit] at h
          obtain ⟨s', hpop, _, hrep'⟩ := pop_front_rep_snoc h
          have hblank : blank_pop_front s = some s' := by
            rw [blank_pop_front_eq, hpop]
            rfl
          have hfuel' : addrs'.length ≤ fuel := by
            have h2 : (a :: rest).length = addrs'.length + 1 := by
              rw [hsplit]
              simp
            simp only [List.length_cons] at h2 hfuel
            omega
          obtain ⟨s'', hloop, hrep''⟩ := ih hrep' hfuel'
          refine ⟨s'', ?_, hrep''⟩
          simp only [clearLoop, he, Bool.false_eq_true, if_false, hblank]
          exact hloop

/-! Traversal lemmas: the pointer walks, the iteration loop and the
recursive equality walk compute the represented item sequences. -/

theorem new_list_rep : list_rep (new_list : doubly_linked_list T) [] [] :=
  ⟨rfl, rfl, rfl, rfl, List.nodup_nil, by simp [new_list]⟩

theorem walk_chain {heap : List (doubly_linked_node T)} {prev : Option Nat}
    {addrs : List Nat} {l : List T}
    (h : node_chain heap prev addrs l = true) :
    ∀ fuel, addrs.length ≤ fuel → walk heap fuel addrs.head? = some l := by
  induction addrs generalizing prev l with
  | nil =>
    cases l with
    | cons y ys => exact absurd h (by simp [node_chain_nil_cons])
    | nil =>
      intro fuel _
      cases fuel <;> rfl
  | cons a rest ih =>
    cases l with
    | nil => exact absurd h (by simp [node_chain_cons_nil])
    | cons x xs =>
      obtain ⟨n, hn, hi, _, hx, hc⟩ := node_chain_cons_cons.mp h
      intro fuel hfuel
      cases fuel with
      | zero => simp at hfuel
      | succ fl =>
        have hrec : walk heap fl rest.head? = some xs :=
          ih hc fl (by simpa using Nat.lt_succ_iff.mp (Nat.lt_of_lt_of_le (by simp) hfuel))
        simp [walk, hn, hx, hrec, hi]

theorem walk_addrs_chain {heap : List (doubly_linked_node T)} {prev : Option Nat}
    {addrs : List Nat} {l : List T}
    (h : node_chain heap prev addrs l = true) :
    ∀ fuel, addrs.length ≤ fuel → walk_addrs heap fuel addrs.head? = some addrs := by
  induction addrs generalizing prev l with
  | nil =>
    cases l with
    | cons y ys => exact absurd h (by simp [node_chain_nil_cons])
    | nil =>
      intro fuel _
      cases fuel <;> rfl
  | cons a rest ih =>
    cases l with
    | nil => exact absurd h (by simp [node_chain_cons_nil])
    | cons x xs =>
      obtain ⟨n, hn, _, _, hx, hc⟩ := node_chain_cons_cons.mp h
      intro fuel hfuel
      cases fuel with
      | zero => simp at hfuel
      | succ fl =>
        have hrec : walk_addrs heap fl rest.head? = some rest :=
          ih hc fl (by simpa using Nat.lt_succ_iff.mp (Nat.lt_of_lt_of_le (by simp) hfuel))
        simp [walk_addrs, hn, hx, hrec]

theorem iterLoop_chain {heap : List (doubly_linked_node T)} {prev : Option Nat}
    {addrs : List Nat} {l : List T}
    (h : node_chain heap prev addrs l = true) :
    ∀ fuel, addrs.length < fuel → iterLoop heap none fuel addrs.head? = some l := by
  induction addrs generalizing prev l with
  | nil =>
    cases l with
    | cons y ys => exact absurd h (by simp [node_chain_nil_cons])
    | nil =>
      intro fuel hfuel
      cases fuel with
      | zero => simp at hfuel
      | succ fl => rfl
  | cons a rest ih =>
    cases l with
    | nil => exact absurd h (by simp [node_chain_cons_nil])
    | cons x xs =>
      obtain ⟨n, hn, hi, _, hx, hc⟩ := node_chain_cons_cons.mp h
      intro fuel hfuel
      cases fuel with
      | zero => simp at hfuel
      | succ fl =>
        have hrec : iterLoop heap none fl rest.head? = some xs :=
          ih hc fl (by simpa using Nat.succ_lt_succ_iff.mp (Nat.lt_of_le_of_lt (by simp) hfuel))
        simp [iterLoop, iter_eq, hn, hx, hrec, hi]

theorem iterate_rep {s : doubly_linked_list T} {addrs : List Nat} {l : List T}
    (h : list_rep s addrs l) (hne : l ≠ []) : iterate s = some l := by
  obtain ⟨hc, hb, hf, hn, hnd, hbd⟩ := h
  have hlen := chain_length hc
  have hane : addrs ≠ [] := by
    intro hh
    rw [hh] at hlen
    exact hne (List.eq_nil_of_length_eq_zero hlen.symm)
  obtain ⟨f, hfl⟩ := Option.isSome_iff_exists.mp (List.getLast?_isSome.mpr hane)
  have hkf : addrs[addrs.length - 1]? = some f := by
    rw [← List.getLast?_eq_getElem?]
    exact hfl
  obtain ⟨fn, hfn, _, hfnext, _⟩ := chain_get hc _ f hkf
  have hnext : fn.next = none := by
    rw [hfnext, List.getElem?_eq_none]
    have : addrs.length ≠ 0 := by
      intro hh
      exact hane (List.eq_nil_of_length_eq_zero hh)
    omega
  have hend : endIt s = some none := by
    simp [endIt, last, hf, hfl, hfn, hnext]
  simp only [iterate, hend, beginIt, first, hb]
  exact iterLoop_chain hc (s.nodes + 1) (by omega)

theorem iterate_rep_nil {s : doubly_linked_list T}
    (h : list_rep s [] ([] : List T)) : iterate s = none := by
  obtain ⟨_, _, hf, _, _, _⟩ := h
  simp [iterate, endIt, last, hf]

theorem equals_chain {h1 h2 : List (doubly_linked_node T)} :
    ∀ {bs1 : List Nat} {l1 : List T} {prev1 : Option Nat}
      {bs2 : List Nat} {l2 : List T} {prev2 : Option Nat} {fuel : Nat},
    node_chain h1 prev1 bs1 l1 = true → node_chain h2 prev2 bs2 l2 = true →
    bs1.length ≤ fuel →
    equals h1 h2 fuel bs1.head? bs2.head? = some (decide (l1 = l2)) := by
  intro bs1
  induction bs1 with
  | nil =>
    intro l1 prev1 bs2 l2 prev2 fuel hc1 hc2 _
    cases l1 with
    | cons y ys => exact absurd hc1 (by simp [node_chain_nil_cons])
    | nil =>
      cases bs2 with
      | nil =>
        cases l2 with
        | cons z zs => exact absurd hc2 (by simp [node_chain_nil_cons])
        | nil => cases fuel <;> simp [equals]
      | cons a2 r2 =>
        cases l2 with
        | nil => exact absurd hc2 (by simp [node_chain_cons_nil])
        | cons z zs => cases fuel <;> simp [equals]
  | cons a1 r1 ih =>
    intro l1 prev1 bs2 l2 prev2 fuel hc1 hc2 hfuel
    cases l1 with
    | nil => exact absurd hc1 (by simp [node_chain_cons_nil])
    | cons x1 xs1 =>
      obtain ⟨n1, hn1, hi1, _, hx1, hcr1⟩ := node_chain_cons_cons.mp hc1
      cases bs2 with
      | nil =>
        cases l2 with
        | cons z zs => exact absurd hc2 (by simp [node_chain_nil_cons])
        | nil => cases fuel <;> simp [equals]
      | cons a2 r2 =>
        cases l2 with
        | nil => exact absurd hc2 (by simp [node_chain_cons_nil])
        | cons x2 xs2 =>
          obtain ⟨n2, hn2, hi2, _, hx2, hcr2⟩ := node_chain_cons_cons.mp hc2
          cases fuel with
          | zero => simp at hfuel
          | succ fl =>
            have hrec : equals h1 h2 fl r1.head? r2.head? = some (decide (xs1 = xs2)) :=
              ih hcr1 hcr2 (by simpa using hfuel)
            simp only [List.head?_cons, equals, hn1, hn2]
            by_cases hx : x1 = x2
            · rw [if_pos (by rw [hi1, hi2, hx]), hx1, hx2, hrec]
              congr 1
              rw [decide_eq_decide]
              simp [hx]
            · rw [if_neg (by rw [hi1, hi2]; exact hx)]
              exact (congrArg some (decide_eq_false (by simp [hx]))).symm

/-! Concatenation: the append loop of `operator+=` and the copy constructor
preserve well-formedness; the aliased self-append loop never terminates. -/

theorem plusEqLoop_rep {rhs : doubly_linked_list T} :
    ∀ {bs : List Nat} {lb : List T} {prevB : Option Nat} {fuel : Nat}
      {s : doubly_linked_list T} {addrs : List Nat} {l : List T},
    node_chain rhs.heap prevB bs lb = true →
    list_rep s addrs l →
    bs.length ≤ fuel →
    ∃ s' addrs', plusEqLoop rhs fuel s bs.head? = some s' ∧
      list_rep s' addrs' (l ++ lb) := by
  intro bs
  induction bs with
  | nil =>
    intro lb prevB fuel s addrs l hcb hrep _
    cases lb with
    | cons z zs => exact absurd hcb (by simp [node_chain_nil_cons])
    | nil =>
      refine ⟨s, addrs, ?_, by simpa using hrep⟩
      cases fuel <;> rfl
  | cons b bs' ih =>
    intro lb prevB fuel s addrs l hcb hrep hfuel
    cases lb with
    | nil => exact absurd hcb (by simp [node_chain_cons_nil])
    | cons x lb' =>
      obtain ⟨n, hn, hi, _, hx, hcb'⟩ := node_chain_cons_cons.mp hcb
      cases fuel with
      | zero => simp at hfuel
      | succ fl =>
        obtain ⟨s1, hpb, _, hrep1⟩ := push_back_rep hrep n.item
        obtain ⟨s', addrs', hloop, hrep'⟩ :=
          ih hcb' hrep1 (by simpa using hfuel)
        refine ⟨s', addrs', ?_, ?_⟩
        · simp only [List.head?_cons, plusEqLoop, hn, hpb, hx]
          exact hloop
        · have : l ++ [n.item] ++ lb' = l ++ (x :: lb') := by
            rw [hi, List.append_assoc, List.singleton_append]
          rwa [this] at hrep'

theorem plus_eq_rep {s t : doubly_linked_list T} {as bt : List Nat}
    {l lt : List T} {fuel : Nat}
    (hs : list_rep s as l) (ht : list_rep t bt lt) (hfuel : bt.length ≤ fuel) :
    ∃ s' addrs', plus_eq fuel s t = some s' ∧ list_rep s' addrs' (l ++ lt) := by
  cases bt with
  | nil =>
    cases lt with
    | cons z zs => exact absurd ht.1 (by simp [node_chain_nil_cons])
    | nil =>
      exact ⟨s, as, by simp [plus_eq, rep_empty_nil ht], by simpa using hs⟩
  | cons b bs' =>
    have he : empty t = false := rep_empty_cons ht
    obtain ⟨s', addrs', hloop, hrep'⟩ := plusEqLoop_rep ht.1 hs hfuel
    refine ⟨s', addrs', ?_, hrep'⟩
    simp only [plus_eq, he, Bool.false_eq_true, if_false]
    rw [ht.2.1]
    exact hloop

theorem copy_ctor_rep {t : doubly_linked_list T} {bt : List Nat} {lt : List T}
    {fuel : Nat} (ht : list_rep t bt lt) (hfuel : bt.length ≤ fuel) :
    ∃ s' addrs', copy_ctor fuel t = some s' ∧ list_rep s' addrs' lt := by
  obtain ⟨s', addrs', hloop, hrep'⟩ := plusEqLoop_rep ht.1 new_list_rep hfuel
  refine ⟨s', addrs', ?_, by simpa using hrep'⟩
  unfold copy_ctor
  rw [ht.2.1]
  exact hloop

theorem move_ctor_rep {s : doubly_linked_list T} {addrs : List Nat} {l : List T}
    (h : list_rep s addrs l) :
    list_rep (move_ctor s).1 addrs l ∧ list_rep (move_ctor s).2 [] [] := by
  constructor
  · exact h
  · exact ⟨rfl, rfl, rfl, rfl, List.nodup_nil, by simp [move_ctor]⟩

theorem plusEqSelfLoop_none :
    ∀ (fuel : Nat) {s : doubly_linked_list T} {addrs : List Nat} {l : List T}
      {k a : Nat},
    list_rep s addrs l → addrs[k]? = some a →
    plusEqSelfLoop fuel s (some a) = none := by
  intro fuel
  induction fuel with
  | zero => intro s addrs l k a _ _; rfl
  | succ fl ih =>
    intro s addrs l k a h hk
    have hklt : k < addrs.length := (List.getElem?_eq_some.mp hk).1
    obtain ⟨n, hn, _, _, _⟩ := chain_get h.1 k a hk
    obtain ⟨s1, hpb, _, hrep1⟩ := push_back_rep h n.item
    have hk1 : (addrs ++ [s.heap.length])[k]? = some a := by
      rw [List.getElem?_append_left hklt]
      exact hk
    obtain ⟨n', hn', _, hnext', _⟩ := chain_get hrep1.1 k a hk1
    have hk2 : k + 1 < (addrs ++ [s.heap.length]).length := by
      simp only [List.length_append, List.length_singleton]
      omega
    have hnext2 : n'.next = some (addrs ++ [s.heap.length])[k + 1] := by
      rw [hnext']
      exact List.getElem?_eq_getElem hk2
    simp only [plusEqSelfLoop, hn, hpb, hn', hnext2]
    exact ih hrep1 (List.getElem?_eq_getElem hk2)

theorem plus_eq_self_none {s : doubly_linked_list T} {addrs : List Nat}
    {l : List T} (h : list_rep s addrs l) (hne : l ≠ []) (fuel : Nat) :
    plus_eq_self fuel s = none := by
  have hlen := chain_length h.1
  have hane : addrs ≠ [] := by
    intro hh
    rw [hh] at hlen
    exact hne (List.eq_nil_of_length_eq_zero hlen.symm)
  cases haddr : addrs with
  | nil => exact absurd haddr hane
  | cons a0 rest =>
    rw [haddr] at h
    have he : empty s = false := rep_empty_cons h
    have hb : s.back = some a0 := by rw [h.2.1]; rfl
    simp only [plus_eq_self, he, Bool.false_eq_true, if_false, hb]
    exact plusEqSelfLoop_none fuel h (show (a0 :: rest)[0]? = some a0 by simp)

/-! Well-formed states satisfy the representation invariants of the
specification. -/

theorem rep_invariants {s : doubly_linked_list T} {addrs : List Nat}
    {l : List T} (h : list_rep s addrs l) : invariants s := by
  obtain ⟨hc, hb, hf, hn, hnd, hbd⟩ := h
  have hwalk : walk_addrs s.heap s.nodes s.back = some addrs := by
    rw [hb]
    exact walk_addrs_chain hc s.nodes (le_of_eq hn.symm)
  refine ⟨?_, ⟨addrs, hwalk, hn.symm⟩, ?_, ?_⟩
  · cases addrs with
    | nil =>
      have h1 : s.front = none := by rw [hf]; rfl
      have h2 : s.back = none := by rw [hb]; rfl
      have h3 : s.nodes = 0 := by rw [hn]; rfl
      simp [h1, h2, h3, empty]
    | cons a0 rest =>
      have h2 : s.back = some a0 := by rw [hb]; rfl
      have h3 : s.nodes ≠ 0 := by
        rw [hn]
        simp
      obtain ⟨f, hfl⟩ := Option.isSome_iff_exists.mp
        (List.getLast?_isSome.mpr (List.cons_ne_nil a0 rest))
      have h1 : s.front = some f := by rw [hf]; exact hfl
      constructor
      · constructor
        · intro hh
          rw [h1] at hh
          exact absurd hh (by simp)
        · intro hh
          rw [h2] at hh
          exact absurd hh (by simp)
      constructor
      · constructor
        · intro hh
          rw [h2] at hh
          exact absurd hh (by simp)
        · intro hh
          exact absurd hh h3
      · constructor
        · intro hh
          rw [empty, h2] at hh
          simp at hh
        · intro hh
          exact absurd hh h3
  · intro addrs0 hwalk0 a ha n hn0
    have haddr : addrs0 = addrs := by
      rw [hwalk] at hwalk0
      exact ((Option.some.injEq ..).mp hwalk0).symm
    subst haddr
    obtain ⟨k, hk⟩ := List.mem_iff_getElem?.mp ha
    obtain ⟨m, hm, _, hmx, hmp⟩ := chain_get hc k a hk
    have hmn : m = n := by
      rw [hn0] at hm
      exact ((Option.some.injEq ..).mp hm).symm
    subst m
    constructor
    · intro b hnb
      rw [hnb] at hmx
      obtain ⟨m', hm', _, _, hmp'⟩ := chain_get hc (k + 1) b hmx.symm
      refine ⟨m', hm', ?_⟩
      rw [hmp']
      exact hk
    · intro c hnc
      rw [hnc] at hmp
      cases k with
      | zero => simp at hmp
      | succ k' =>
        obtain ⟨m'', hm'', _, hmx'', _⟩ := chain_get hc k' c hmp.symm
        refine ⟨m'', hm'', ?_⟩
        rw [hmx'']
        exact hk
  · intro h1
    have hlen1 : addrs.length = 1 := by rw [← hn]; exact h1
    obtain ⟨a, ha⟩ := List.length_eq_one.mp hlen1
    subst ha
    have hback : s.back = some a := by rw [hb]; rfl
    have hfr : s.front = s.back := by rw [hf, hb]; rfl
    cases l with
    | nil => exact absurd hc (by simp [node_chain_cons_nil])
    | cons x xs =>
      cases xs with
      | cons y ys =>
        have := chain_length hc
        simp at this
      | nil =>
        obtain ⟨n, hn', _, hp, hx, _⟩ := node_chain_cons_cons.mp hc
        exact ⟨hfr, a, n, hback, hn', hp, by simpa using hx⟩

/-! Helper lemmas used to instantiate the claims. -/

theorem push_back_all_rep {s : doubly_linked_list T} {addrs : List Nat}
    {l : List T} (h : list_rep s addrs l) :
    ∀ m : List T, ∃ s' addrs', push_back_all s m = some s' ∧
      list_rep s' addrs' (l ++ m) := by
  intro m
  induction m generalizing s addrs l with
  | nil => exact ⟨s, addrs, rfl, by simpa using h⟩
  | cons x xs ih =>
    obtain ⟨s1, hpb, _, hrep1⟩ := push_back_rep h x
    obtain ⟨s', addrs', hall, hrep'⟩ := ih hrep1
    refine ⟨s', addrs', ?_, ?_⟩
    · simp only [push_back_all, hpb]
      exact hall
    · rwa [List.append_assoc, List.singleton_append] at hrep'

theorem push_front_all_rep {s : doubly_linked_list T} {addrs : List Nat}
    {l : List T} (h : list_rep s addrs l) :
    ∀ m : List T, ∃ s' addrs', push_front_all s m = some s' ∧
      list_rep s' addrs' (m.reverse ++ l) := by
  intro m
  induction m generalizing s addrs l with
  | nil => exact ⟨s, addrs, rfl, by simpa using h⟩
  | cons x xs ih =>
    obtain ⟨s1, hpf, _, hrep1⟩ := push_front_rep h x
    obtain ⟨s', addrs', hall, hrep'⟩ := ih hrep1
    refine ⟨s', addrs', ?_, ?_⟩
    · simp only [push_front_all, hpf]
      exact hall
    · rw [List.reverse_cons, List.append_assoc, List.singleton_append]
      exact hrep'

theorem pop_front_empty_rep [Inhabited T] {s : doubly_linked_list T}
    (h : list_rep s [] ([] : List T)) : pop_front s = some (default, s) := by
  simp [pop_front, rep_empty_nil h]

theorem pop_back_empty_rep [Inhabited T] {s : doubly_linked_list T}
    (h : list_rep s [] ([] : List T)) : pop_back s = some (default, s) := by
  simp [pop_back, rep_empty_nil h]

theorem pop_front_any [Inhabited T] {s : doubly_linked_list T} {addrs : List Nat}
    {l : List T} (h : list_rep s addrs l) :
    ∃ r s' addrs2 l2, pop_front s = some (r, s') ∧ list_rep s' addrs2 l2 := by
  rcases List.eq_nil_or_concat addrs with hnil | ⟨addrs', f, hsplit⟩
  · subst hnil
    cases l with
    | cons y ys => exact absurd h.1 (by simp [node_chain_nil_cons])
    | nil => exact ⟨default, s, [], [], pop_front_empty_rep h, h⟩
  · rcases List.eq_nil_or_concat l with hlnil | ⟨l', x, hlsplit⟩
    · exfalso
      have := chain_length h.1
      rw [hsplit, hlnil] at this
      simp at this
    · rw [List.concat_eq_append] at hsplit hlsplit
      rw [hsplit, hlsplit] at h
      obtain ⟨s', hpop, _, hrep'⟩ := pop_front_rep_snoc h
      exact ⟨x, s', addrs', l', hpop, hrep'⟩

theorem pop_back_any [Inhabited T] {s : doubly_linked_list T} {addrs : List Nat}
    {l : List T} (h : list_rep s addrs l) :
    ∃ r s' addrs2 l2, pop_back s = some (r, s') ∧ list_rep s' addrs2 l2 := by
  cases addrs with
  | nil =>
    cases l with
    | cons y ys => exact absurd h.1 (by simp [node_chain_nil_cons])
    | nil => exact ⟨default, s, [], [], pop_back_empty_rep h, h⟩
  | cons b addrs' =>
    cases l with
    | nil => exact absurd h.1 (by simp [node_chain_cons_nil])
    | cons x l' =>
      obtain ⟨s', hpop, _, hrep'⟩ := pop_back_rep_cons h
      exact ⟨x, s', addrs', l', hpop, hrep'⟩

theorem list_eq_rep {s1 s2 : doubly_linked_list T} {a1 a2 : List Nat}
    {l1 l2 : List T} (h1 : list_rep s1 a1 l1) (h2 : list_rep s2 a2 l2) :
    list_eq s1 s2 = some (decide (l1 = l2)) := by
  unfold list_eq
  rw [h1.2.1, h2.2.1]
  refine equals_chain h1.1 h2.1 ?_
  have := h1.2.2.2.1
  omega

theorem A1_rep : list_rep A1 [0] [1] :=
  ⟨by decide, by decide, by decide, by decide, by decide, by decide⟩

theorem B1_rep : list_rep B1 [0] [2] :=
  ⟨by decide, by decide, by decide, by decide, by decide, by decide⟩

/-! Claim theorems. -/

/-- C1: evaluating the code at the claim's own scenario.  After push_back(1),
push_back(2), push_back(3) the list iterates as [1,2,3], but `pop_front()`
returns 3 (the tail, the push_back end) — the claim and the repository's unit
tests say it returns 1 (the head) — and the subsequent `pop_back()` returns 1
— the claim says 3.  The remaining list iterates as [2] and has size 1 either
way.  Likewise after push_front(1), push_front(2), the claim says the first
`pop_back()` yields 1 (original order) and the first `pop_front()` yields 2
(reversed); the code yields 2 and 1 respectively: the two pop operations act
on the opposite ends from the ones the claim (and the tests) assign them. -/
theorem c1_pops_act_on_swapped_ends :
    (push_back_all (new_list : doubly_linked_list Int) [1, 2, 3]).bind iterate
      = some [1, 2, 3] ∧
    ((push_back_all (new_list : doubly_linked_list Int) [1, 2, 3]).bind
      pop_front).map Prod.fst = some 3 ∧
    ((push_back_all (new_list : doubly_linked_list Int) [1, 2, 3]).bind
      pop_front).bind (fun p => (pop_back p.2).map Prod.fst) = some 1 ∧
    ((push_back_all (new_list : doubly_linked_list Int) [1, 2, 3]).bind
      pop_front).bind (fun p => (pop_back p.2).bind (fun q => iterate q.2))
      = some [2] ∧
    ((push_back_all (new_list : doubly_linked_list Int) [1, 2, 3]).bind
      pop_front).bind (fun p => (pop_back p.2).map (fun q => size q.2))
      = some 1 ∧
    ((push_front_all (new_list : doubly_linked_list Int) [1, 2]).bind
      pop_back).map Prod.fst = some 2 ∧
    ((push_front_all (new_list : doubly_linked_list Int) [1, 2]).bind
      pop_front).map Prod.fst = some 1 := by
  decide

/-- C2: for every nonempty sequence, push_back-ing it and iterating from
begin() to end() yields exactly the sequence, and push_front-ing it yields
the reverse — but for the empty sequence the iteration itself is undefined,
because constructing end() on the empty list dereferences an absent node
(`next(last())` with `last()` null): the code returns no value there. -/
theorem c2_push_then_iterate :
    (∀ m : List Int, m ≠ [] →
      ∃ s, push_back_all (new_list : doubly_linked_list Int) m = some s ∧
        iterate s = some m) ∧
    (∀ m : List Int, m ≠ [] →
      ∃ s, push_front_all (new_list : doubly_linked_list Int) m = some s ∧
        iterate s = some m.reverse) ∧
    (∃ s, push_back_all (new_list : doubly_linked_list Int) [] = some s ∧
      iterate s = none) := by
  refine ⟨?_, ?_, ⟨new_list, rfl, iterate_rep_nil new_list_rep⟩⟩
  · intro m hm
    obtain ⟨s, addrs, hall, hrep⟩ := push_back_all_rep new_list_rep m
    rw [List.nil_append] at hrep
    exact ⟨s, hall, iterate_rep hrep hm⟩
  · intro m hm
    obtain ⟨s, addrs, hall, hrep⟩ := push_front_all_rep new_list_rep m
    rw [List.append_nil] at hrep
    exact ⟨s, hall, iterate_rep hrep (by simpa using hm)⟩

/-- C2 witness: the general statement applied at the concrete sequence
[1, 2]. -/
theorem c2_witness :
    (∃ s, push_back_all (new_list : doubly_linked_list Int) [1, 2] = some s ∧
      iterate s = some [1, 2]) ∧
    (∃ s, push_front_all (new_list : doubly_linked_list Int) [1, 2] = some s ∧
      iterate s = some [2, 1]) :=
  ⟨c2_push_then_iterate.1 [1, 2] (by decide),
   by simpa using c2_push_then_iterate.2.1 [1, 2] (by decide)⟩

/-- C3: evaluating the code at a concrete input.  After push_back(1),
push_back(2) the list iterates as [1,2], so the head item (first of forward
iteration, the push_front end) is 1 — but `peek_front()` returns 2 (the
push_back end) and `peek_back()` returns 1: each peek reads the opposite end
from the one the claim assigns it.  Neither peek mutates the list: in the
model they are functions of the state returning only an item. -/
theorem c3_peeks_act_on_swapped_ends :
    (push_back_all (new_list : doubly_linked_list Int) [1, 2]).map peek_front
      = some (some 2) ∧
    (push_back_all (new_list : doubly_linked_list Int) [1, 2]).map peek_back
      = some (some 1) ∧
    (push_back_all (new_list : doubly_linked_list Int) [1, 2]).bind iterate
      = some [1, 2] ∧
    (push_back_all (new_list : doubly_linked_list Int) [1, 2]).map size
      = some 2 := by
  decide

/-- C4: evaluating the code at the failing input.  On the empty list, both
`end()` and `rend()` dereference an absent node while being constructed
(`next(last())` and `previous(first())` with a null argument), so neither is
well-defined and `begin() == end()` cannot even be evaluated; `begin()` and
`rbegin()` themselves are plain pointer copies and are fine (null). -/
theorem c4_end_rend_undefined_on_empty :
    endIt (new_list : doubly_linked_list Int) = none ∧
    rendIt (new_list : doubly_linked_list Int) = none ∧
    beginIt (new_list : doubly_linked_list Int) = none ∧
    rbeginIt (new_list : doubly_linked_list Int) = none := by
  decide

/-- C5 counterexample: the claim says a sentinel cursor and a non-sentinel
cursor compare unequal in either argument order; with the sentinel on the
left, the code instead falls through its two guards and dereferences the
absent left node, so the comparison is not the claimed `false`. -/
theorem c5_counterexample :
    ¬ (iter_eq ([] : List (doubly_linked_node Int)) [{ item := 0 }] none (some 0)
        = some false) := by
  decide

/-- C5 as amended: cursor equality is item-based — two sentinels are equal,
a non-sentinel left cursor and a sentinel right cursor are unequal, two
non-sentinel cursors are equal exactly when their nodes' items are equal —
but comparing a sentinel left cursor with a non-sentinel right cursor
dereferences an absent node (undefined behavior) instead of returning
unequal.  The reverse-cursor comparison is the same code. -/
theorem c5_cursor_equality :
    (∀ h1 h2 : List (doubly_linked_node Int), iter_eq h1 h2 none none = some true) ∧
    (∀ (h1 h2 : List (doubly_linked_node Int)) (a : Nat),
      iter_eq h1 h2 (some a) none = some false) ∧
    (∀ (h1 h2 : List (doubly_linked_node Int)) (a : Nat),
      iter_eq h1 h2 none (some a) = none) ∧
    (∀ (h1 h2 : List (doubly_linked_node Int)) (a b : Nat)
      (n1 n2 : doubly_linked_node Int),
      h1[a]? = some n1 → h2[b]? = some n2 →
      (iter_eq h1 h2 (some a) (some b) = some true ↔ n1.item = n2.item)) := by
  refine ⟨fun h1 h2 => rfl, fun h1 h2 a => rfl, fun h1 h2 a => rfl, ?_⟩
  intro h1 h2 a b n1 n2 hn1 hn2
  simp [iter_eq, hn1, hn2, node_eq]

/-- C5 witness: the amended characterization applied at concrete cursors. -/
theorem c5_witness :
    iter_eq [({ item := 5 } : doubly_linked_node Int)] [{ item := 5 }]
      (some 0) (some 0) = some true :=
  (c5_cursor_equality.2.2.2 _ _ 0 0 _ _ rfl rfl).mpr rfl

/-- C6: on any empty list (the canonical empty state: both end links absent,
count zero), pop_front and pop_back each return the default-constructed value
— 0 for Int — and return the state unchanged; no error path exists. -/
theorem c6_pop_on_empty :
    ∀ s : doubly_linked_list Int, empty s = true →
      pop_front s = some (default, s) ∧ pop_back s = some (default, s) ∧
      s.front = none ∧ s.back = none ∧ s.nodes = 0 ∧ (default : Int) = 0 := by
  intro s he
  have hcomp := he
  simp only [empty, Bool.and_eq_true, Option.isNone_iff_eq_none, beq_iff_eq] at hcomp
  exact ⟨by simp [pop_front, he], by simp [pop_back, he],
    hcomp.1.1, hcomp.1.2, hcomp.2, rfl⟩

/-- C6 witness: the theorem applied to the default-constructed list. -/
theorem c6_witness :
    pop_front (new_list : doubly_linked_list Int) = some (default, new_list) ∧
    pop_back (new_list : doubly_linked_list Int) = some (default, new_list) :=
  ⟨(c6_pop_on_empty new_list (by decide)).1,
   (c6_pop_on_empty new_list (by decide)).2.1⟩

/-- C7: two well-formed lists compare equal under `operator==` exactly when
they hold the same item sequence in the same order (the recursive pairwise
walk from the head end), and in particular every list equals itself. -/
theorem c7_equality_is_sequence_equality :
    ∀ (s1 s2 : doubly_linked_list Int) (a1 a2 : List Nat) (l1 l2 : List Int),
      list_rep s1 a1 l1 → list_rep s2 a2 l2 →
      (list_eq s1 s2 = some true ↔ l1 = l2) ∧ list_eq s1 s1 = some true := by
  intro s1 s2 a1 a2 l1 l2 h1 h2
  constructor
  · rw [list_eq_rep h1 h2]
    constructor
    · intro hh
      exact of_decide_eq_true ((Option.some.injEq ..).mp hh)
    · intro hh
      rw [hh]
      simp
  · rw [list_eq_rep h1 h1]
    simp

/-- C7 witness: the theorem applied at concrete one-element lists. -/
theorem c7_witness : list_eq A1 A1 = some true :=
  (c7_equality_is_sequence_equality A1 A1 [0] [0] [1] [1] A1_rep A1_rep).2

/-- C8: for well-formed lists A and B (distinct objects — in this functional
model the two states are separate values, so B is never mutated), `A += B`
(and the member `A + B`, which is literally `*this += rhs`) produces a
well-formed list holding A's items followed by B's items in front-to-back
order, and the free `operator+` produces such a list from a copy of A; the
result iterates as A ++ B whenever it is non-empty, and B afterwards still
iterates as before.  When A and B are both empty the result is the empty
list, and iterating it is undefined: constructing `end()` dereferences an
absent node (the same defect as on any empty list). -/
theorem c8_concatenation :
    (∀ (s t : doubly_linked_list Int) (as2 bt : List Nat) (l lt : List Int),
      list_rep s as2 l → list_rep t bt lt →
      ∃ s' addrs', plus_eq t.nodes s t = some s' ∧
        list_rep s' addrs' (l ++ lt) ∧
        (l ++ lt ≠ [] → iterate s' = some (l ++ lt)) ∧
        (lt ≠ [] → iterate t = some lt)) ∧
    (∀ (s t : doubly_linked_list Int) (as2 bt : List Nat) (l lt : List Int),
      list_rep s as2 l → list_rep t bt lt →
      ∃ s' addrs', op_plus s.nodes t.nodes s t = some s' ∧
        list_rep s' addrs' (l ++ lt)) ∧
    ((plus_eq 0 (new_list : doubly_linked_list Int) new_list).bind iterate
      = none) := by
  refine ⟨?_, ?_, by decide⟩
  · intro s t as2 bt l lt hs ht
    obtain ⟨s', addrs', hplus, hrep'⟩ :=
      plus_eq_rep hs ht (le_of_eq ht.2.2.2.1.symm)
    exact ⟨s', addrs', hplus, hrep',
      fun hne => iterate_rep hrep' hne, fun hne => iterate_rep ht hne⟩
  · intro s t as2 bt l lt hs ht
    obtain ⟨c, ac, hcopy, hcrep⟩ := copy_ctor_rep hs (le_of_eq hs.2.2.2.1.symm)
    obtain ⟨s', addrs', hplus, hrep'⟩ :=
      plus_eq_rep hcrep ht (le_of_eq ht.2.2.2.1.symm)
    refine ⟨s', addrs', ?_, hrep'⟩
    simp only [op_plus, hcopy]
    exact hplus

/-- C8 witness: the general statement applied at the one-element lists [1]
and [2]. -/
theorem c8_witness :
    ∃ s' addrs', plus_eq B1.nodes A1 B1 = some s' ∧
      list_rep s' addrs' ([1] ++ [2]) ∧
      (([1] : List Int) ++ [2] ≠ [] → iterate s' = some ([1] ++ [2])) ∧
      (([2] : List Int) ≠ [] → iterate B1 = some [2]) :=
  c8_concatenation.1 A1 B1 [0] [0] [1] [2] A1_rep B1_rep

/-- C9: every public operation, applied to well-formed states, succeeds and
yields states satisfying the representation invariants: the two end links
are absent together and exactly when the count is zero (with `empty()`
agreeing); the count equals the number of nodes reachable from the head end;
neighboring links are mutually consistent; and a one-element list has both
end links on a single node with absent links. -/
theorem c9_operations_preserve_invariants :
    ∀ (s t : doubly_linked_list Int) (addrs bt : List Nat) (l lt : List Int)
      (x : Int),
      list_rep s addrs l → list_rep t bt lt →
      invariants s ∧
      (∃ s', push_front s x = some s' ∧ invariants s') ∧
      (∃ s', push_back s x = some s' ∧ invariants s') ∧
      (∃ r s', pop_front s = some (r, s') ∧ invariants s') ∧
      (∃ r s', pop_back s = some (r, s') ∧ invariants s') ∧
      (∃ s', clearLoop s.nodes s = some s' ∧ invariants s') ∧
      (∃ s', copy_ctor s.nodes s = some s' ∧ invariants s') ∧
      invariants (move_ctor s).1 ∧ invariants (move_ctor s).2 ∧
      (∃ s', copy_assign t.nodes s t = some s' ∧ invariants s') ∧
      invariants (move_assign s t).1 ∧ invariants (move_assign s t).2 ∧
      (∃ s', plus_eq t.nodes s t = some s' ∧ invariants s') := by
  intro s t addrs bt l lt x hs ht
  refine ⟨rep_invariants hs, ?_, ?_, ?_, ?_, ?_, ?_, ?_, ?_, ?_, ?_, ?_, ?_⟩
  · obtain ⟨s', hop, _, hrep⟩ := push_front_rep hs x
    exact ⟨s', hop, rep_invariants hrep⟩
  · obtain ⟨s', hop, _, hrep⟩ := push_back_rep hs x
    exact ⟨s', hop, rep_invariants hrep⟩
  · obtain ⟨r, s', _, _, hop, hrep⟩ := pop_front_any hs
    exact ⟨r, s', hop, rep_invariants hrep⟩
  · obtain ⟨r, s', _, _, hop, hrep⟩ := pop_back_any hs
    exact ⟨r, s', hop, rep_invariants hrep⟩
  · obtain ⟨s', hop, hrep⟩ := clearLoop_rep hs (le_of_eq hs.2.2.2.1.symm)
    exact ⟨s', hop, rep_invariants hrep⟩
  · obtain ⟨s', _, hop, hrep⟩ := copy_ctor_rep hs (le_of_eq hs.2.2.2.1.symm)
    exact ⟨s', hop, rep_invariants hrep⟩
  · exact rep_invariants (move_ctor_rep hs).1
  · exact rep_invariants (move_ctor_rep hs).2
  · obtain ⟨s', _, hop, hrep⟩ := copy_ctor_rep ht (le_of_eq ht.2.2.2.1.symm)
    exact ⟨s', hop, rep_invariants hrep⟩
  · exact rep_invariants (move_ctor_rep ht).1
  · exact rep_invariants (move_ctor_rep ht).2
  · obtain ⟨s', _, hop, hrep⟩ := plus_eq_rep hs ht (le_of_eq ht.2.2.2.1.symm)
    exact ⟨s', hop, rep_invariants hrep⟩

/-- C9 witness: the theorem applied at concrete well-formed states. -/
theorem c9_witness : invariants A1 :=
  (c9_operations_preserve_invariants A1 B1 [0] [0] [1] [2] 7 A1_rep B1_rep).1

/-- C10 counterexample: the claim says the self-append `A += A` of the
non-empty list A = [1] terminates (doubling A); in fact no amount of fuel
makes the modeled loop return. -/
theorem c10_counterexample :
    ¬ ∃ (fuel : Nat) (s' : doubly_linked_list Int),
        plus_eq_self fuel A1 = some s' := by
  rintro ⟨fuel, s', hs⟩
  rw [plus_eq_self_none A1_rep (by decide) fuel] at hs
  exact Option.noConfusion hs

/-- C10 as amended: for every non-empty well-formed list, the self-append
`A += A` does not terminate — the traversal pointer follows `next` into the
nodes being appended, so it never becomes null — while on the empty list the
`rhs.empty()` guard makes the self-append return immediately with the list
unchanged. -/
theorem c10_self_append_diverges :
    (∀ (s : doubly_linked_list Int) (addrs : List Nat) (l : List Int),
      list_rep s addrs l → l ≠ [] → ∀ fuel, plus_eq_self fuel s = none) ∧
    (∀ (s : doubly_linked_list Int) (fuel : Nat), empty s = true →
      plus_eq_self fuel s = some s) := by
  constructor
  · intro s addrs l h hne fuel
    exact plus_eq_self_none h hne fuel
  · intro s fuel he
    simp [plus_eq_self, he]

/-- C10 witness: the amended statement applied at the concrete list [1] with
fuel 5. -/
theorem c10_witness : plus_eq_self 5 A1 = none :=
  c10_self_append_diverges.1 A1 [0] [1] A1_rep (by decide) 5

end dsa
